import Mathlib

/-!
Verification of the placeholder-positioning and gesture state machine of
the Ink.UI.SortableList component (src/dist/js/ink.sortablelist.js).

The sortable container is modelled as a list of node identifiers giving
the sibling order of its children.  The component's session fields
`_isMoving` and `_placeholder` (JS falsy / element) become `Option Nat`
fields.  Host collaborators that live outside src/ are modelled from the
spec: tree mutation (insert-before, insert-after, remove) as list
surgery on the sibling order, `Element.offset` as a layout function from
nodes to document-relative `(x, y)` offsets read at decision time,
`Css.addClassName` / `removeClassName` as set-like updates of
(element, class) pairs, and `Selector.matchesSelector` as a predicate on
nodes.  Per the spec's failure semantics, a host primitive applied to an
absent node reference silently no-ops rather than faulting.
-/

namespace SortableList

/-- Remove the first occurrence of a node from a sibling list; models the
host's `removeChild` step that precedes re-insertion of a node. -/
def eraseN (a : Nat) : List Nat → List Nat
  | [] => []
  | x :: xs => if x = a then xs else x :: eraseN a xs

/-- Insert node `n` immediately before the first occurrence of `t`;
unchanged when `t` is absent. -/
def insertBeforeList (n t : Nat) : List Nat → List Nat
  | [] => []
  | x :: xs => if x = t then n :: x :: xs else x :: insertBeforeList n t xs

/-- Insert node `n` immediately after the first occurrence of `t`;
unchanged when `t` is absent. -/
def insertAfterList (n t : Nat) : List Nat → List Nat
  | [] => []
  | x :: xs => if x = t then x :: n :: xs else x :: insertAfterList n t xs

/-- Modelled from the spec: host tree-mutation primitive insert-before
(`Ink.Dom.Element.insertBefore`, not under src/).  Relocates node `n` so
it sits immediately before `t`; a no-op when `t` is not in the container
or when `n` and `t` coincide (DOM insert-before of a node relative to
itself). -/
def domInsertBefore (n t : Nat) (l : List Nat) : List Nat :=
  if n = t then l
  else if t ∈ eraseN n l then insertBeforeList n t (eraseN n l)
  else l

/-- Modelled from the spec: host tree-mutation primitive insert-after
(`Ink.Dom.Element.insertAfter`, not under src/), analogous to
`domInsertBefore`. -/
def domInsertAfter (n t : Nat) (l : List Nat) : List Nat :=
  if n = t then l
  else if t ∈ eraseN n l then insertAfterList n t (eraseN n l)
  else l

/-- Modelled from the spec: insert-after applied to a possibly-absent node
reference; with no node to insert it silently no-ops (spec section 7:
anomalous inputs degrade to no-ops, never to thrown faults). -/
def domInsertAfterN (n : Option Nat) (t : Nat) (l : List Nat) : List Nat :=
  match n with
  | none => l
  | some a => domInsertAfter a t l

/-- Modelled from the spec: insert-before lifted to possibly-absent node
references (silent no-op when either reference is absent). -/
def domInsertBeforeO (n t : Option Nat) (l : List Nat) : List Nat :=
  match n, t with
  | some a, some b => domInsertBefore a b l
  | _, _ => l

/-- Modelled from the spec: host remove primitive applied to a
possibly-absent node reference (`Element.remove(this._placeholder)` in
`stopMoving`, which the spec requires to be safe from Idle). -/
def domRemoveOpt (n : Option Nat) (l : List Nat) : List Nat :=
  match n with
  | none => l
  | some a => eraseN a l

/-- Replace every occurrence of `a` by `b`; on duplicate-free lists this
is "the node `b` now occupies `a`'s former position". -/
def replaceNode (a b : Nat) (l : List Nat) : List Nat :=
  l.map (fun x => if x = a then b else x)

/-- The transposition of two node identifiers, used to state the net
effect of swap mode. -/
def swapNodes (a b x : Nat) : Nat :=
  if x = a then b else if x = b then a else x

/-- Decides whether `a` occurs with `b` as its immediate right sibling. -/
def immediatelyBefore (a b : Nat) : List Nat → Bool
  | x :: y :: xs => (x == a && y == b) || immediatelyBefore a b (y :: xs)
  | _ => false

/-- Modelled from the spec: `Css.addClassName` over the set of
(element, class) pairs carried by the visual tree. -/
def addClass (el : Nat) (c : String) (cs : List (Nat × String)) : List (Nat × String) :=
  if (el, c) ∈ cs then cs else (el, c) :: cs

/-- Modelled from the spec: `Css.removeClassName` on an element. -/
def removeClass (el : Nat) (c : String) (cs : List (Nat × String)) : List (Nat × String) :=
  cs.filter (fun q => q != (el, c))

/-- Class addition on the document root (`document.documentElement`). -/
def addDocClass (c : String) (cs : List String) : List String :=
  if c ∈ cs then cs else c :: cs

/-- Class removal on the document root. -/
def removeDocClass (c : String) (cs : List String) : List String :=
  cs.filter (fun x => x != c)

/-- Class addition lifted to a possibly-absent element reference. -/
def addClassOpt (el : Option Nat) (c : String) (cs : List (Nat × String)) : List (Nat × String) :=
  match el with
  | none => cs
  | some e => addClass e c cs

/-- The option bag of the component, restricted to the options the
gesture logic reads (lines 45-55 of the source; `dragSelector`,
`dragObject` and `cancelMouseOut` only configure the event-binding layer).
Selectors are modelled as predicates on nodes. -/
structure Options where
  placeholderClass : String
  draggedClass : String
  draggingClass : String
  handleSelector : Option (Nat → Bool)
  moveSelector : Option (Nat → Bool)
  swap : Bool

/-- Component state: sibling order of the container, the visual classes
on elements and on the document root, and the two session fields
`_isMoving` and `_placeholder`. -/
structure SState where
  dom : List Nat
  elemClasses : List (Nat × String)
  docClasses : List String
  isMoving : Option Nat
  placeholder : Option Nat
  deriving DecidableEq

/-- State right after construction: `_isMoving = false`, `_placeholder`
unset (lines 65 and 110 of the source). -/
def initState (dom : List Nat) : SState :=
  { dom := dom, elemClasses := [], docClasses := [], isMoving := none, placeholder := none }

/-- The session invariant of the spec: the two session fields are both
set or both absent. -/
def sessionOk (st : SState) : Prop :=
  st.isMoving = none ↔ st.placeholder = none

instance (st : SState) : Decidable (sessionOk st) := by
  unfold sessionOk; infer_instance

/-- Modelled from the spec: `Selector.matchesSelector` against an
optionally configured selector; an unconfigured selector imposes no
constraint (the source's falsy short-circuit on line 241). -/
def matchesOpt (s : Option (Nat → Bool)) (e : Nat) : Bool :=
  match s with
  | none => true
  | some sel => sel e

/-- Guard on line 111 of the source: a configured handle selector blocks
the gesture when the down-event's target does not match it. -/
def handleBlocks (o : Options) (evTarget : Nat) : Bool :=
  match o.handleSelector with
  | none => false
  | some sel => !(sel evTarget)

/-- `_movePlaceholder` (lines 179-203): the placement decision.  `off` is
the layout read by `Element.offset` at decision time. -/
def movePlaceholder (o : Options) (off : Nat → Int × Int) (st : SState) (target : Nat) : SState :=
  match st.placeholder with
  | none =>
      { st with dom := domInsertAfterN none target st.dom }
  | some placeholder =>
      if o.swap then
        let d1 := domInsertAfter placeholder target st.dom
        let d2 := domInsertBeforeO (some target) st.isMoving d1
        let d3 := domInsertBeforeO st.isMoving (some placeholder) d2
        { st with dom := d3 }
      else
        let target_position := off target
        let placeholder_position := off placeholder
        let from_top : Bool := decide (target_position.2 > placeholder_position.2)
        let from_left : Bool := decide (target_position.1 > placeholder_position.1)
        let d1 :=
          if (from_top && from_left) || (!from_top && !from_left) then
            domInsertBefore placeholder target st.dom
          else
            domInsertAfter placeholder target st.dom
        let d2 := domInsertBeforeO st.isMoving (some placeholder) d1
        { st with dom := d2 }

/-- `_addMovingClasses` (lines 154-158). -/
def addMovingClasses (o : Options) (st : SState) : SState :=
  let cs1 := addClassOpt st.placeholder o.placeholderClass st.elemClasses
  let cs2 := addClassOpt st.isMoving o.draggedClass cs1
  { st with elemClasses := cs2, docClasses := addDocClass o.draggingClass st.docClasses }

/-- `_removeMovingClasses` (lines 166-170): element-class removals are
guarded on the session fields, the document-root removal is not. -/
def removeMovingClasses (o : Options) (st : SState) : SState :=
  let cs1 :=
    match st.isMoving with
    | some el => removeClass el o.draggedClass st.elemClasses
    | none => st.elemClasses
  let cs2 :=
    match st.placeholder with
    | some el => removeClass el o.placeholderClass cs1
    | none => cs1
  { st with elemClasses := cs2, docClasses := removeDocClass o.draggingClass st.docClasses }

/-- `stopMoving` (lines 223-228): remove the classes, remove the
placeholder from the tree, clear both session fields. -/
def stopMoving (o : Options) (st : SState) : SState :=
  let st1 := removeMovingClasses o st
  let st2 := { st1 with dom := domRemoveOpt st1.placeholder st1.dom }
  { st2 with placeholder := none, isMoving := none }

/-- `validateMove` (lines 237-246): guards, then either the placement
decision or a full cancel. -/
def validateMove (o : Options) (off : Nat → Int × Int) (st : SState) (elem : Nat) : SState :=
  if st.isMoving = none ∨ st.placeholder = none then st
  else if st.placeholder = some elem then st
  else if st.isMoving = some elem then st
  else if matchesOpt o.moveSelector elem then
    movePlaceholder o off st elem
  else
    stopMoving o st

/-- `_onDown` (lines 109-118).  The fresh clone produced by
`tgtEl.cloneNode(true)` is supplied as `cloneId`. -/
def onDown (o : Options) (off : Nat → Int × Int) (st : SState)
    (evTarget evCurrentTarget cloneId : Nat) : SState :=
  if st.isMoving ≠ none ∨ st.placeholder ≠ none then st
  else if handleBlocks o evTarget then st
  else
    let st1 := { st with isMoving := some evCurrentTarget, placeholder := some cloneId }
    let st2 := movePlaceholder o off st1 evCurrentTarget
    addMovingClasses o st2

/-- `_onMove` (lines 127-130). -/
def onMove (o : Options) (off : Nat → Int × Int) (st : SState) (evCurrentTarget : Nat) : SState :=
  validateMove o off st evCurrentTarget

/-- `_onUp` (lines 139-146): guards, then commit (relocate the dragged
item to immediately before the placeholder) and cleanup. -/
def onUp (o : Options) (st : SState) (evCurrentTarget : Nat) : SState :=
  if st.isMoving = none ∨ st.placeholder = none then st
  else if st.isMoving = some evCurrentTarget then st
  else if st.placeholder = some evCurrentTarget then st
  else
    let st1 := { st with dom := domInsertBeforeO st.isMoving st.placeholder st.dom }
    stopMoving o st1

/-- Default options of the source (lines 46-54), selectors unconfigured. -/
def opts0 : Options :=
  { placeholderClass := "placeholder", draggedClass := "hide-all",
    draggingClass := "dragging", handleSelector := none, moveSelector := none,
    swap := false }

/-- Default options with swap mode enabled. -/
def opts1 : Options :=
  { opts0 with swap := true }

/-- A concrete selector predicate matching the even node identifiers. -/
def selEven : Nat → Bool :=
  fun n => n % 2 == 0

/-- Options with a move selector matching only even node identifiers. -/
def opts2 : Options :=
  { opts0 with moveSelector := some selEven }

/-- Options with a handle selector matching only even node identifiers. -/
def opts3 : Options :=
  { opts0 with handleSelector := some selEven }

/-- A concrete layout placing node `n` at `(n, n)`: every offset
comparison between two nodes has equal horizontal and vertical sign. -/
def off0 : Nat → Int × Int :=
  fun n => (Int.ofNat n, Int.ofNat n)

/-- A concrete layout placing node `n` at `(n, -n)`: for distinct nodes
the horizontal and vertical comparisons always disagree. -/
def off1 : Nat → Int × Int :=
  fun n => (Int.ofNat n, - Int.ofNat n)

/-! Helper lemmas about the list-surgery primitives. -/

theorem mem_insertBeforeList {a : Nat} (n t : Nat) {l : List Nat} (h : a ∈ l) :
    a ∈ insertBeforeList n t l := by
  induction l with
  | nil => cases h
  | cons x xs ih =>
      simp only [insertBeforeList]
      split
      · rcases List.mem_cons.mp h with h1 | h1 <;> simp [h1]
      · rcases List.mem_cons.mp h with h1 | h1
        · simp [h1]
        · exact List.mem_cons_of_mem _ (ih h1)

theorem self_mem_insertBeforeList (n : Nat) {t : Nat} {l : List Nat} (h : t ∈ l) :
    n ∈ insertBeforeList n t l := by
  induction l with
  | nil => cases h
  | cons x xs ih =>
      simp only [insertBeforeList]
      split
      · simp
      · rcases List.mem_cons.mp h with h1 | h1
        · simp_all
        · exact List.mem_cons_of_mem _ (ih h1)

theorem mem_insertAfterList {a : Nat} (n t : Nat) {l : List Nat} (h : a ∈ l) :
    a ∈ insertAfterList n t l := by
  induction l with
  | nil => cases h
  | cons x xs ih =>
      simp only [insertAfterList]
      split
      · rcases List.mem_cons.mp h with h1 | h1 <;> simp [h1]
      · rcases List.mem_cons.mp h with h1 | h1
        · simp [h1]
        · exact List.mem_cons_of_mem _ (ih h1)

theorem self_mem_insertAfterList (n : Nat) {t : Nat} {l : List Nat} (h : t ∈ l) :
    n ∈ insertAfterList n t l := by
  induction l with
  | nil => cases h
  | cons x xs ih =>
      simp only [insertAfterList]
      split
      · simp
      · rcases List.mem_cons.mp h with h1 | h1
        · simp_all
        · exact List.mem_cons_of_mem _ (ih h1)

theorem mem_eraseN_of_ne {a b : Nat} (h : a ≠ b) (l : List Nat) :
    a ∈ eraseN b l ↔ a ∈ l := by
  induction l with
  | nil => simp [eraseN]
  | cons x xs ih =>
      simp only [eraseN]
      split
      · subst_vars
        simp [h, ih]
      · simp [ih]

theorem not_mem_eraseN_self {l : List Nat} (a : Nat) (h : l.Nodup) :
    a ∉ eraseN a l := by
  induction l with
  | nil => simp [eraseN]
  | cons x xs ih =>
      rw [List.nodup_cons] at h
      simp only [eraseN]
      split
      · subst_vars
        exact h.1
      · intro hmem
        rcases List.mem_cons.mp hmem with h1 | h1
        · exact absurd h1.symm (by assumption)
        · exact ih h.2 h1

theorem nodup_eraseN (a : Nat) {l : List Nat} (h : l.Nodup) :
    (eraseN a l).Nodup := by
  induction l with
  | nil => simp [eraseN]
  | cons x xs ih =>
      rw [List.nodup_cons] at h
      simp only [eraseN]
      split
      · exact h.2
      · rename_i hxa
        rw [List.nodup_cons]
        exact ⟨fun hm => h.1 ((mem_eraseN_of_ne hxa xs).mp hm), ih h.2⟩

theorem eraseN_insertBeforeList_comm {a n t : Nat} (h1 : a ≠ n) (h2 : a ≠ t)
    (l : List Nat) :
    eraseN a (insertBeforeList n t l) = insertBeforeList n t (eraseN a l) := by
  induction l with
  | nil => simp [eraseN, insertBeforeList]
  | cons x xs ih =>
      by_cases hx : x = t
      · subst hx
        simp [insertBeforeList, eraseN, Ne.symm h1, Ne.symm h2]
      · by_cases ha : x = a
        · subst ha
          simp [insertBeforeList, eraseN, hx]
        · simp [insertBeforeList, eraseN, hx, ha, ih]

theorem eraseN_insertAfterList_comm {a n t : Nat} (h1 : a ≠ n) (h2 : a ≠ t)
    (l : List Nat) :
    eraseN a (insertAfterList n t l) = insertAfterList n t (eraseN a l) := by
  induction l with
  | nil => simp [eraseN, insertAfterList]
  | cons x xs ih =>
      by_cases hx : x = t
      · subst hx
        simp [insertAfterList, eraseN, Ne.symm h1, Ne.symm h2]
      · by_cases ha : x = a
        · subst ha
          simp [insertAfterList, eraseN, hx]
        · simp [insertAfterList, eraseN, hx, ha, ih]

theorem eraseN_cons_self (a : Nat) (xs : List Nat) : eraseN a (a :: xs) = xs := by
  simp [eraseN]

theorem eraseN_cons_ne {x a : Nat} (h : x ≠ a) (xs : List Nat) :
    eraseN a (x :: xs) = x :: eraseN a xs := by
  simp [eraseN, h]

theorem insertBeforeList_cons_self (n t : Nat) (xs : List Nat) :
    insertBeforeList n t (t :: xs) = n :: t :: xs := by
  simp [insertBeforeList]

theorem insertBeforeList_cons_ne {x t : Nat} (n : Nat) (h : x ≠ t) (xs : List Nat) :
    insertBeforeList n t (x :: xs) = x :: insertBeforeList n t xs := by
  simp [insertBeforeList, h]

theorem insertAfterList_cons_self (n t : Nat) (xs : List Nat) :
    insertAfterList n t (t :: xs) = t :: n :: xs := by
  simp [insertAfterList]

theorem insertAfterList_cons_ne {x t : Nat} (n : Nat) (h : x ≠ t) (xs : List Nat) :
    insertAfterList n t (x :: xs) = x :: insertAfterList n t xs := by
  simp [insertAfterList, h]

theorem replaceNode_cons_self (a b : Nat) (xs : List Nat) :
    replaceNode a b (a :: xs) = b :: replaceNode a b xs := by
  simp [replaceNode]

theorem replaceNode_cons_ne {x a : Nat} (b : Nat) (h : x ≠ a) (xs : List Nat) :
    replaceNode a b (x :: xs) = x :: replaceNode a b xs := by
  simp [replaceNode, h]

theorem swapNodes_left (a b : Nat) : swapNodes a b a = b := by
  simp [swapNodes]

theorem swapNodes_right {a b : Nat} (h : b ≠ a) : swapNodes a b b = a := by
  simp [swapNodes, h]

theorem swapNodes_other {a b x : Nat} (h1 : x ≠ a) (h2 : x ≠ b) : swapNodes a b x = x := by
  simp [swapNodes, h1, h2]

theorem immediatelyBefore_cons {a b : Nat} (x : Nat) {l : List Nat}
    (h : immediatelyBefore a b l = true) :
    immediatelyBefore a b (x :: l) = true := by
  cases l with
  | nil => simp [immediatelyBefore] at h
  | cons y ys => simp [immediatelyBefore, h]

theorem immediatelyBefore_insertBeforeList (a : Nat) {b : Nat} {l : List Nat} (h : b ∈ l) :
    immediatelyBefore a b (insertBeforeList a b l) = true := by
  induction l with
  | nil => cases h
  | cons x xs ih =>
      by_cases hx : x = b
      · subst hx
        simp [insertBeforeList, immediatelyBefore]
      · rw [List.mem_cons] at h
        rcases h with h | h
        · exact absurd h.symm hx
        · simp only [insertBeforeList, if_neg hx]
          exact immediatelyBefore_cons x (ih h)

theorem immediatelyBefore_insertAfterList (a : Nat) {b : Nat} {l : List Nat} (h : b ∈ l) :
    immediatelyBefore b a (insertAfterList a b l) = true := by
  induction l with
  | nil => cases h
  | cons x xs ih =>
      by_cases hx : x = b
      · subst hx
        simp [insertAfterList, immediatelyBefore]
      · rw [List.mem_cons] at h
        rcases h with h | h
        · exact absurd h.symm hx
        · simp only [insertAfterList, if_neg hx]
          exact immediatelyBefore_cons x (ih h)

theorem replaceNode_eq_self {a : Nat} (b : Nat) {l : List Nat} (h : a ∉ l) :
    replaceNode a b l = l := by
  induction l with
  | nil => rfl
  | cons x xs ih =>
      have hx : x ≠ a := fun he => h (by rw [← he]; exact List.mem_cons_self x xs)
      have h2 : a ∉ xs := fun hm => h (List.mem_cons_of_mem x hm)
      rw [replaceNode_cons_ne b hx xs]
      exact congrArg (x :: ·) (ih h2)

theorem mem_replaceNode {a b c : Nat} {l : List Nat} (h : c ∈ replaceNode a b l) :
    c ∈ l ∨ c = b := by
  induction l with
  | nil => cases h
  | cons x xs ih =>
      simp only [replaceNode, List.map_cons] at h
      rcases List.mem_cons.mp h with h1 | h1
      · split at h1
        · exact Or.inr h1
        · exact Or.inl (h1 ▸ List.mem_cons_self x xs)
      · rcases ih h1 with h2 | h2
        · exact Or.inl (List.mem_cons_of_mem x h2)
        · exact Or.inr h2

theorem mem_replaceNode_new {a : Nat} (b : Nat) {l : List Nat} (h : a ∈ l) :
    b ∈ replaceNode a b l := by
  induction l with
  | nil => cases h
  | cons x xs ih =>
      rw [List.mem_cons] at h
      by_cases hx : x = a
      · simp [replaceNode, hx]
      · rcases h with h | h
        · exact absurd h.symm hx
        · simp only [replaceNode, List.map_cons]
          exact List.mem_cons_of_mem _ (ih h)

theorem replaceNode_nodup {a b : Nat} {l : List Nat} (h : l.Nodup) (hb : b ∉ l) :
    (replaceNode a b l).Nodup := by
  induction l with
  | nil => simp [replaceNode]
  | cons x xs ih =>
      rw [List.nodup_cons] at h
      have hbx : b ∉ xs := fun hm => hb (List.mem_cons_of_mem x hm)
      by_cases hx : x = a
      · subst hx
        simp only [replaceNode, List.map_cons, if_pos rfl]
        rw [show List.map (fun y => if y = x then b else y) xs = replaceNode x b xs from rfl,
          replaceNode_eq_self b h.1]
        exact List.nodup_cons.mpr ⟨hbx, h.2⟩
      · simp only [replaceNode, List.map_cons, if_neg hx]
        rw [List.nodup_cons]
        refine ⟨fun hm => ?_, ih h.2 hbx⟩
        rcases mem_replaceNode hm with h1 | h1
        · exact h.1 h1
        · exact hb (by rw [← h1]; exact List.mem_cons_self x xs)

theorem eraseN_target_insertBeforeList {n t : Nat} (hnt : n ≠ t) {l : List Nat}
    (h : l.Nodup) :
    eraseN t (insertBeforeList n t l) = replaceNode t n l := by
  induction l with
  | nil => rfl
  | cons x xs ih =>
      rw [List.nodup_cons] at h
      by_cases hx : x = t
      · rw [hx]
        rw [insertBeforeList_cons_self n t xs, eraseN_cons_ne hnt (t :: xs),
          eraseN_cons_self t xs, replaceNode_cons_self t n xs,
          replaceNode_eq_self n (hx ▸ h.1)]
      · rw [insertBeforeList_cons_ne n hx xs, eraseN_cons_ne hx (insertBeforeList n t xs),
          replaceNode_cons_ne n hx xs]
        exact congrArg (x :: ·) (ih h.2)

theorem eraseN_target_insertAfterList (n : Nat) {t : Nat} {l : List Nat}
    (h : l.Nodup) :
    eraseN t (insertAfterList n t l) = replaceNode t n l := by
  induction l with
  | nil => rfl
  | cons x xs ih =>
      rw [List.nodup_cons] at h
      by_cases hx : x = t
      · rw [hx]
        rw [insertAfterList_cons_self n t xs, eraseN_cons_self t (n :: xs),
          replaceNode_cons_self t n xs, replaceNode_eq_self n (hx ▸ h.1)]
      · rw [insertAfterList_cons_ne n hx xs, eraseN_cons_ne hx (insertAfterList n t xs),
          replaceNode_cons_ne n hx xs]
        exact congrArg (x :: ·) (ih h.2)

theorem eraseN_insertAfterList_self {n : Nat} (t : Nat) {l : List Nat} (h : n ∉ l) :
    eraseN n (insertAfterList n t l) = l := by
  induction l with
  | nil => rfl
  | cons x xs ih =>
      have hx : x ≠ n := fun he => h (by rw [← he]; exact List.mem_cons_self x xs)
      have h2 : n ∉ xs := fun hm => h (List.mem_cons_of_mem x hm)
      by_cases hxt : x = t
      · subst hxt
        simp [insertAfterList, eraseN, hx]
      · simp [insertAfterList, eraseN, hxt, hx, ih h2]

theorem not_mem_map_swapNodes {p d c : Nat} {l : List Nat} (hp : p ∉ l)
    (h1 : p ≠ d) (h2 : p ≠ c) : p ∉ List.map (swapNodes d c) l := by
  intro hm
  rcases List.mem_map.mp hm with ⟨x, hx, he⟩
  unfold swapNodes at he
  split at he
  · exact h2 he.symm
  · split at he
    · exact h1 he.symm
    · exact hp (he ▸ hx)

theorem mem_map_swapNodes_of {d c : Nat} {l : List Nat} (hc : c ∈ l) (hdc : d ≠ c) :
    d ∈ List.map (swapNodes d c) l := by
  refine List.mem_map.mpr ⟨c, hc, ?_⟩
  unfold swapNodes
  rw [if_neg (Ne.symm hdc), if_pos rfl]

theorem replaceNode_eq_map_swapNodes {d c : Nat} {l : List Nat} (hc : c ∉ l) :
    replaceNode d c l = List.map (swapNodes d c) l := by
  induction l with
  | nil => rfl
  | cons x xs ih =>
      have hx : x ≠ c := fun he => hc (by rw [← he]; exact List.mem_cons_self x xs)
      have h2 : c ∉ xs := fun hm => hc (List.mem_cons_of_mem x hm)
      simp only [replaceNode, List.map_cons, List.cons.injEq]
      refine ⟨?_, ih h2⟩
      by_cases hxd : x = d
      · subst hxd
        simp [swapNodes]
      · simp [swapNodes, hxd, hx]

theorem filter_filter_self {α : Type} (p : α → Bool) (l : List α) :
    (l.filter p).filter p = l.filter p := by
  induction l with
  | nil => rfl
  | cons x xs ih =>
      by_cases h : p x = true
      · simp [List.filter_cons, h, ih]
      · simp [List.filter_cons, h, ih]

/-- Core computation of swap mode: erasing the target of each of the
first two relocations turns them into node substitutions, after which the
whole three-step dance is the transposition of the dragged item and the
candidate followed by re-inserting the placeholder right after the
dragged item. -/
theorem swap_core {d p c : Nat} (h1 : d ≠ p) (h2 : c ≠ p) (h3 : d ≠ c)
    {l : List Nat} (hp : p ∉ l) (hn : l.Nodup) :
    insertBeforeList d p (replaceNode d c (replaceNode c p l)) =
      insertAfterList p d (List.map (swapNodes d c) l) := by
  induction l with
  | nil => rfl
  | cons x xs ih =>
      rw [List.nodup_cons] at hn
      have hpx : x ≠ p := fun he => hp (by rw [← he]; exact List.mem_cons_self x xs)
      have hpxs : p ∉ xs := fun hm => hp (List.mem_cons_of_mem x hm)
      by_cases hxc : x = c
      · have hcxs : c ∉ xs := hxc ▸ hn.1
        rw [hxc]
        rw [replaceNode_cons_self c p xs, replaceNode_eq_self p hcxs,
          replaceNode_cons_ne c (Ne.symm h1) xs,
          insertBeforeList_cons_self d p (replaceNode d c xs),
          List.map_cons, swapNodes_right (Ne.symm h3),
          insertAfterList_cons_self p d (List.map (swapNodes d c) xs),
          replaceNode_eq_map_swapNodes hcxs]
      · by_cases hxd : x = d
        · rw [hxd]
          rw [replaceNode_cons_ne p h3 xs, replaceNode_cons_self d c (replaceNode c p xs),
            insertBeforeList_cons_ne d h2 (replaceNode d c (replaceNode c p xs)),
            List.map_cons, swapNodes_left d c,
            insertAfterList_cons_ne p (Ne.symm h3) (List.map (swapNodes d c) xs)]
          exact congrArg (c :: ·) (ih hpxs hn.2)
        · rw [replaceNode_cons_ne p hxc xs, replaceNode_cons_ne c hxd (replaceNode c p xs),
            insertBeforeList_cons_ne d hpx (replaceNode d c (replaceNode c p xs)),
            List.map_cons, swapNodes_other hxd hxc,
            insertAfterList_cons_ne p hxd (List.map (swapNodes d c) xs)]
          exact congrArg (x :: ·) (ih hpxs hn.2)

/-! Shape and field-preservation lemmas for the component operations. -/

theorem movePlaceholder_eq_setDom (o : Options) (off : Nat → Int × Int)
    (st : SState) (t : Nat) :
    ∃ l, movePlaceholder o off st t = { st with dom := l } := by
  unfold movePlaceholder
  rcases st with ⟨dom, ec, dc, im, ph⟩
  cases ph
  · exact ⟨_, rfl⟩
  · dsimp only
    split
    · exact ⟨_, rfl⟩
    · exact ⟨_, rfl⟩

theorem movePlaceholder_isMoving (o : Options) (off : Nat → Int × Int)
    (st : SState) (t : Nat) :
    (movePlaceholder o off st t).isMoving = st.isMoving := by
  obtain ⟨l, hl⟩ := movePlaceholder_eq_setDom o off st t
  rw [hl]

theorem movePlaceholder_placeholder (o : Options) (off : Nat → Int × Int)
    (st : SState) (t : Nat) :
    (movePlaceholder o off st t).placeholder = st.placeholder := by
  obtain ⟨l, hl⟩ := movePlaceholder_eq_setDom o off st t
  rw [hl]

theorem addMovingClasses_isMoving (o : Options) (st : SState) :
    (addMovingClasses o st).isMoving = st.isMoving := rfl

theorem addMovingClasses_placeholder (o : Options) (st : SState) :
    (addMovingClasses o st).placeholder = st.placeholder := rfl

theorem stopMoving_isMoving (o : Options) (st : SState) :
    (stopMoving o st).isMoving = none := rfl

theorem stopMoving_placeholder (o : Options) (st : SState) :
    (stopMoving o st).placeholder = none := rfl

theorem not_mem_removeClass_self (el : Nat) (c : String) (cs : List (Nat × String)) :
    (el, c) ∉ removeClass el c cs := by
  simp [removeClass, List.mem_filter]

theorem not_mem_removeClass {q : Nat × String} (el : Nat) (c : String)
    {cs : List (Nat × String)} (h : q ∉ cs) : q ∉ removeClass el c cs := by
  intro hm
  exact h (List.mem_filter.mp hm).1

theorem not_mem_removeDocClass_self (c : String) (cs : List String) :
    c ∉ removeDocClass c cs := by
  simp [removeDocClass, List.mem_filter]

/-- Under an active session with a candidate distinct from both session
nodes and accepted by the move selector, `validateMove` runs the placement
decision. -/
theorem validateMove_active (o : Options) (off : Nat → Int × Int)
    (dom : List Nat) (ec : List (Nat × String)) (dc : List String)
    {d p e : Nat} (hep : e ≠ p) (hed : e ≠ d)
    (hsel : matchesOpt o.moveSelector e = true) :
    validateMove o off ⟨dom, ec, dc, some d, some p⟩ e
      = movePlaceholder o off ⟨dom, ec, dc, some d, some p⟩ e := by
  unfold validateMove
  rw [if_neg (by simp), if_neg (by simp [Ne.symm hep]), if_neg (by simp [Ne.symm hed]),
    if_pos hsel]

/-- From an idle state an unblocked pointer-down opens a session. -/
theorem onDown_starts (o : Options) (off : Nat → Int × Int) (st : SState)
    (t ct cid : Nat) (h1 : st.isMoving = none) (h2 : st.placeholder = none)
    (hb : handleBlocks o t = false) :
    (onDown o off st t ct cid).isMoving = some ct ∧
    (onDown o off st t ct cid).placeholder = some cid := by
  unfold onDown
  rw [if_neg (by simp [h1, h2]), if_neg (by simp [hb])]
  constructor
  · rw [addMovingClasses_isMoving, movePlaceholder_isMoving]
  · rw [addMovingClasses_placeholder, movePlaceholder_placeholder]

/-- Inserting the dragged item before the placeholder does not disturb the
placeholder-candidate adjacency created by the preceding insert-before. -/
theorem imb_pair_before {d p e : Nat} {l : List Nat} (he : e ∈ l) (hp : p ∉ l) :
    immediatelyBefore p e (insertBeforeList d p (insertBeforeList p e l)) = true := by
  induction l with
  | nil => cases he
  | cons x xs ih =>
      have hxp : x ≠ p := fun hh => hp (by rw [← hh]; exact List.mem_cons_self x xs)
      have hpxs : p ∉ xs := fun hm => hp (List.mem_cons_of_mem x hm)
      by_cases hx : x = e
      · rw [hx, insertBeforeList_cons_self p e xs,
          insertBeforeList_cons_self d p (e :: xs)]
        exact immediatelyBefore_cons d (by simp [immediatelyBefore])
      · have he2 : e ∈ xs := by
          rcases List.mem_cons.mp he with h | h
          · exact absurd h.symm hx
          · exact h
        rw [insertBeforeList_cons_ne p hx xs,
          insertBeforeList_cons_ne d hxp (insertBeforeList p e xs)]
        exact immediatelyBefore_cons x (ih he2 hpxs)

/-- Inserting the dragged item before the placeholder slides it between
the candidate and the placeholder left by the preceding insert-after. -/
theorem imb_pair_after {d p e : Nat} {l : List Nat} (he : e ∈ l) (hp : p ∉ l) :
    immediatelyBefore e d (insertBeforeList d p (insertAfterList p e l)) = true := by
  induction l with
  | nil => cases he
  | cons x xs ih =>
      have hxp : x ≠ p := fun hh => hp (by rw [← hh]; exact List.mem_cons_self x xs)
      have hpxs : p ∉ xs := fun hm => hp (List.mem_cons_of_mem x hm)
      by_cases hx : x = e
      · have hep2 : e ≠ p := fun hh => (hh ▸ hx : x = p) |> hxp
        rw [hx, insertAfterList_cons_self p e xs,
          insertBeforeList_cons_ne d hep2 (p :: xs),
          insertBeforeList_cons_self d p xs]
        simp [immediatelyBefore]
      · have he2 : e ∈ xs := by
          rcases List.mem_cons.mp he with h | h
          · exact absurd h.symm hx
          · exact h
        rw [insertAfterList_cons_ne p hx xs,
          insertBeforeList_cons_ne d hxp (insertAfterList p e xs)]
        exact immediatelyBefore_cons x (ih he2 hpxs)

/-- Reorder mode, agreeing offsets: placeholder goes immediately before
the candidate, the dragged item immediately before the placeholder. -/
theorem reorder_dom_before {d p e : Nat} {dom : List Nat} (hnd : dom.Nodup)
    (he : e ∈ dom) (hdp : d ≠ p) (hep : e ≠ p) (hed : e ≠ d) :
    immediatelyBefore d p (domInsertBefore d p (domInsertBefore p e dom)) = true ∧
    immediatelyBefore p e (domInsertBefore d p (domInsertBefore p e dom)) = true := by
  have hee : e ∈ eraseN p dom := (mem_eraseN_of_ne hep dom).mpr he
  have h1 : domInsertBefore p e dom = insertBeforeList p e (eraseN p dom) := by
    unfold domInsertBefore
    rw [if_neg (Ne.symm hep), if_pos hee]
  have hpm : p ∈ insertBeforeList p e (eraseN p dom) := self_mem_insertBeforeList p hee
  have h2 : domInsertBefore d p (insertBeforeList p e (eraseN p dom))
      = insertBeforeList d p (eraseN d (insertBeforeList p e (eraseN p dom))) := by
    unfold domInsertBefore
    rw [if_neg hdp, if_pos ((mem_eraseN_of_ne (Ne.symm hdp) _).mpr hpm)]
  have h3 : eraseN d (insertBeforeList p e (eraseN p dom))
      = insertBeforeList p e (eraseN d (eraseN p dom)) :=
    eraseN_insertBeforeList_comm hdp (Ne.symm hed) (eraseN p dom)
  have hpl0 : p ∉ eraseN d (eraseN p dom) := fun hm =>
    not_mem_eraseN_self p hnd ((mem_eraseN_of_ne (Ne.symm hdp) _).mp hm)
  have hel0 : e ∈ eraseN d (eraseN p dom) := (mem_eraseN_of_ne hed _).mpr hee
  rw [h1, h2, h3]
  exact ⟨immediatelyBefore_insertBeforeList d (self_mem_insertBeforeList p hel0),
    imb_pair_before hel0 hpl0⟩

/-- Reorder mode, disagreeing offsets: placeholder goes after the
candidate, the dragged item then lands between them. -/
theorem reorder_dom_after {d p e : Nat} {dom : List Nat} (hnd : dom.Nodup)
    (he : e ∈ dom) (hdp : d ≠ p) (hep : e ≠ p) (hed : e ≠ d) :
    immediatelyBefore e d (domInsertBefore d p (domInsertAfter p e dom)) = true ∧
    immediatelyBefore d p (domInsertBefore d p (domInsertAfter p e dom)) = true := by
  have hee : e ∈ eraseN p dom := (mem_eraseN_of_ne hep dom).mpr he
  have h1 : domInsertAfter p e dom = insertAfterList p e (eraseN p dom) := by
    unfold domInsertAfter
    rw [if_neg (Ne.symm hep), if_pos hee]
  have hpm : p ∈ insertAfterList p e (eraseN p dom) := self_mem_insertAfterList p hee
  have h2 : domInsertBefore d p (insertAfterList p e (eraseN p dom))
      = insertBeforeList d p (eraseN d (insertAfterList p e (eraseN p dom))) := by
    unfold domInsertBefore
    rw [if_neg hdp, if_pos ((mem_eraseN_of_ne (Ne.symm hdp) _).mpr hpm)]
  have h3 : eraseN d (insertAfterList p e (eraseN p dom))
      = insertAfterList p e (eraseN d (eraseN p dom)) :=
    eraseN_insertAfterList_comm hdp (Ne.symm hed) (eraseN p dom)
  have hpl0 : p ∉ eraseN d (eraseN p dom) := fun hm =>
    not_mem_eraseN_self p hnd ((mem_eraseN_of_ne (Ne.symm hdp) _).mp hm)
  have hel0 : e ∈ eraseN d (eraseN p dom) := (mem_eraseN_of_ne hed _).mpr hee
  rw [h1, h2, h3]
  exact ⟨imb_pair_after hel0 hpl0,
    immediatelyBefore_insertBeforeList d (self_mem_insertAfterList p hel0)⟩

/-! Claim theorems. -/

/-- Claim C5: the session invariant — dragged item and placeholder both
set or both absent — holds in the initial state and is preserved by every
operation of the component: pointer-down, pointer-move, the placement
decision entry point, pointer-up and `stopMoving`. -/
theorem session_invariant_preserved (o : Options) (off : Nat → Int × Int)
    (st : SState) (dom : List Nat) (a b c e u : Nat) (h : sessionOk st) :
    sessionOk (initState dom) ∧
    sessionOk (onDown o off st a b c) ∧
    sessionOk (onMove o off st e) ∧
    sessionOk (validateMove o off st e) ∧
    sessionOk (onUp o st u) ∧
    sessionOk (stopMoving o st) := by
  have hstop : ∀ s : SState, sessionOk (stopMoving o s) := by
    intro s
    simp [sessionOk, stopMoving_isMoving, stopMoving_placeholder]
  have hvm : sessionOk (validateMove o off st e) := by
    unfold validateMove
    split
    · exact h
    split
    · exact h
    split
    · exact h
    split
    · simp only [sessionOk, movePlaceholder_isMoving, movePlaceholder_placeholder]
      exact h
    · exact hstop st
  have hdown : sessionOk (onDown o off st a b c) := by
    unfold onDown
    split
    · exact h
    split
    · exact h
    · simp [sessionOk, addMovingClasses_isMoving, movePlaceholder_isMoving,
        addMovingClasses_placeholder, movePlaceholder_placeholder]
  have hup : sessionOk (onUp o st u) := by
    unfold onUp
    split
    · exact h
    split
    · exact h
    split
    · exact h
    · exact hstop _
  exact ⟨by simp [sessionOk, initState], hdown, hvm, hvm, hup, hstop st⟩

theorem session_invariant_preserved_witness :
    sessionOk (⟨[0, 1, 2], [], [], some 1, some 2⟩ : SState) ∧
    (sessionOk (initState [5]) ∧
      sessionOk (onDown opts0 off0 ⟨[0, 1, 2], [], [], some 1, some 2⟩ 0 0 9) ∧
      sessionOk (onMove opts0 off0 ⟨[0, 1, 2], [], [], some 1, some 2⟩ 0) ∧
      sessionOk (validateMove opts0 off0 ⟨[0, 1, 2], [], [], some 1, some 2⟩ 0) ∧
      sessionOk (onUp opts0 ⟨[0, 1, 2], [], [], some 1, some 2⟩ 0) ∧
      sessionOk (stopMoving opts0 ⟨[0, 1, 2], [], [], some 1, some 2⟩)) :=
  ⟨by decide,
   session_invariant_preserved opts0 off0 ⟨[0, 1, 2], [], [], some 1, some 2⟩
     [5] 0 0 9 0 0 (by decide)⟩

/-- Claim C6: the placement decision entry point `validateMove` is a strict
no-op — state and tree untouched — when the candidate equals the dragged
item or the placeholder, and whenever no gesture is active. -/
theorem validateMove_noop (o : Options) (off : Nat → Int × Int) (st : SState) (e : Nat) :
    (st.isMoving = none ∨ st.placeholder = none → validateMove o off st e = st) ∧
    (st.placeholder = some e → validateMove o off st e = st) ∧
    (st.isMoving = some e → validateMove o off st e = st) := by
  unfold validateMove
  refine ⟨fun h => ?_, fun h => ?_, fun h => ?_⟩
  · rw [if_pos h]
  · by_cases h0 : st.isMoving = none ∨ st.placeholder = none
    · rw [if_pos h0]
    · rw [if_neg h0, if_pos h]
  · by_cases h0 : st.isMoving = none ∨ st.placeholder = none
    · rw [if_pos h0]
    · by_cases h1 : st.placeholder = some e
      · rw [if_neg h0, if_pos h1]
      · rw [if_neg h0, if_neg h1, if_pos h]

theorem validateMove_noop_witness :
    ((initState [0, 1]).isMoving = none ∨ (initState [0, 1]).placeholder = none) ∧
    validateMove opts0 off0 (initState [0, 1]) 0 = initState [0, 1] ∧
    validateMove opts0 off0 ⟨[0, 1, 2], [], [], some 1, some 2⟩ 2
      = ⟨[0, 1, 2], [], [], some 1, some 2⟩ ∧
    validateMove opts0 off0 ⟨[0, 1, 2], [], [], some 1, some 2⟩ 1
      = ⟨[0, 1, 2], [], [], some 1, some 2⟩ :=
  ⟨Or.inl rfl,
   (validateMove_noop opts0 off0 (initState [0, 1]) 0).1 (Or.inl rfl),
   (validateMove_noop opts0 off0 ⟨[0, 1, 2], [], [], some 1, some 2⟩ 2).2.1 rfl,
   (validateMove_noop opts0 off0 ⟨[0, 1, 2], [], [], some 1, some 2⟩ 1).2.2 rfl⟩

/-- `stopMoving` from an idle state: only the redundant removal of the
document-root dragging class happens. -/
theorem stopMoving_idle (o : Options) (st : SState)
    (h1 : st.isMoving = none) (h2 : st.placeholder = none) :
    stopMoving o st = { st with docClasses := removeDocClass o.draggingClass st.docClasses } := by
  obtain ⟨dom, ec, dc, im, ph⟩ := st
  cases im with
  | some v => exact absurd h1 (by simp)
  | none =>
      cases ph with
      | some v => exact absurd h2 (by simp)
      | none => rfl

/-- Claim C7: `stopMoving` is idempotent, always leaves both session
fields absent, and called from Idle performs no tree mutation and no
element-class change — only the redundant document-root class removal. -/
theorem stopMoving_idempotent (o : Options) (st : SState) :
    stopMoving o (stopMoving o st) = stopMoving o st ∧
    (stopMoving o st).isMoving = none ∧
    (stopMoving o st).placeholder = none ∧
    (st.isMoving = none → st.placeholder = none →
      stopMoving o st = { st with docClasses := removeDocClass o.draggingClass st.docClasses }) := by
  refine ⟨?_, rfl, rfl, fun h1 h2 => stopMoving_idle o st h1 h2⟩
  rw [stopMoving_idle o (stopMoving o st) rfl rfl]
  have e1 : removeDocClass o.draggingClass (stopMoving o st).docClasses
      = (stopMoving o st).docClasses := by
    show removeDocClass o.draggingClass (removeDocClass o.draggingClass st.docClasses) = _
    unfold removeDocClass
    exact filter_filter_self _ _
  rw [e1]

theorem stopMoving_idempotent_witness :
    (⟨[3, 4], [(3, "hide-all")], ["dragging"], none, none⟩ : SState).isMoving = none ∧
    stopMoving opts0 (stopMoving opts0 ⟨[3, 4], [(3, "hide-all")], ["dragging"], none, none⟩)
      = stopMoving opts0 ⟨[3, 4], [(3, "hide-all")], ["dragging"], none, none⟩ ∧
    stopMoving opts0 (⟨[3, 4], [(3, "hide-all")], ["dragging"], none, none⟩ : SState)
      = { (⟨[3, 4], [(3, "hide-all")], ["dragging"], none, none⟩ : SState) with
          docClasses := removeDocClass opts0.draggingClass ["dragging"] } :=
  ⟨rfl,
   (stopMoving_idempotent opts0 ⟨[3, 4], [(3, "hide-all")], ["dragging"], none, none⟩).1,
   (stopMoving_idempotent opts0 ⟨[3, 4], [(3, "hide-all")], ["dragging"], none, none⟩).2.2.2
     rfl rfl⟩

/-- Claim C8: reached with no placeholder, the placement decision
degenerates to the single insert-after of the (absent) placeholder
relative to the candidate — here a silent no-op, there being no
placeholder node — and touches nothing else: no swap dance, no
relocation of the dragged item, no session-field change. -/
theorem movePlaceholder_no_placeholder (o : Options) (off : Nat → Int × Int)
    (st : SState) (t : Nat) (h : st.placeholder = none) :
    movePlaceholder o off st t = { st with dom := domInsertAfterN none t st.dom } := by
  obtain ⟨dom, ec, dc, im, ph⟩ := st
  cases ph with
  | some v => exact absurd h (by simp)
  | none => rfl

theorem movePlaceholder_no_placeholder_witness :
    (initState [0, 1, 2]).placeholder = none ∧
    movePlaceholder opts0 off0 (initState [0, 1, 2]) 1
      = { initState [0, 1, 2] with dom := domInsertAfterN none 1 [0, 1, 2] } :=
  ⟨rfl, movePlaceholder_no_placeholder opts0 off0 (initState [0, 1, 2]) 1 rfl⟩

/-- Claim C9: a pointer-down is ignored — no state change, no tree
change — while a session is already active (so a second pointer-down
during Dragging never opens a session), and likewise ignored when a
configured handle selector rejects the down-event's target. -/
theorem onDown_guards (o : Options) (off : Nat → Int × Int) (st : SState)
    (sel : Nat → Bool) (a b c : Nat) :
    (st.isMoving ≠ none ∨ st.placeholder ≠ none → onDown o off st a b c = st) ∧
    (o.handleSelector = some sel → sel a = false → onDown o off st a b c = st) := by
  constructor
  · intro h
    unfold onDown
    rw [if_pos h]
  · intro hs hsa
    unfold onDown
    by_cases h0 : st.isMoving ≠ none ∨ st.placeholder ≠ none
    · rw [if_pos h0]
    · have hb : handleBlocks o a = true := by
        unfold handleBlocks
        rw [hs]
        show (!(sel a)) = true
        rw [hsa]
        rfl
      rw [if_neg h0, if_pos hb]

theorem onDown_guards_witness :
    ((⟨[0, 1, 2], [], [], some 1, some 2⟩ : SState).isMoving ≠ none ∨
      (⟨[0, 1, 2], [], [], some 1, some 2⟩ : SState).placeholder ≠ none) ∧
    onDown opts0 off0 ⟨[0, 1, 2], [], [], some 1, some 2⟩ 0 0 9
      = ⟨[0, 1, 2], [], [], some 1, some 2⟩ ∧
    opts3.handleSelector = some selEven ∧ selEven 1 = false ∧
    onDown opts3 off0 (initState [0, 1]) 1 1 9 = initState [0, 1] :=
  ⟨Or.inl (by decide),
   (onDown_guards opts0 off0 ⟨[0, 1, 2], [], [], some 1, some 2⟩ selEven 0 0 9).1
     (Or.inl (by decide)),
   rfl, rfl,
   (onDown_guards opts3 off0 (initState [0, 1]) selEven 1 1 9).2 rfl rfl⟩

/-- Claim C3: with a move selector configured, a candidate that fails it
(and is neither session node) cancels the whole gesture: cleanup runs
(markers removed, placeholder removed from the tree), both session fields
clear, the non-placeholder sibling order is untouched, and a subsequent
unblocked pointer-down opens a fresh session. -/
theorem moveSelector_cancels (o : Options) (off : Nat → Int × Int)
    (dom : List Nat) (ec : List (Nat × String)) (dc : List String)
    (d p e t ct cid : Nat) (sel : Nat → Bool)
    (hms : o.moveSelector = some sel) (hse : sel e = false)
    (hep : e ≠ p) (hed : e ≠ d) (hbl : handleBlocks o t = false) :
    (validateMove o off ⟨dom, ec, dc, some d, some p⟩ e).isMoving = none ∧
    (validateMove o off ⟨dom, ec, dc, some d, some p⟩ e).placeholder = none ∧
    (validateMove o off ⟨dom, ec, dc, some d, some p⟩ e).dom = eraseN p dom ∧
    (d, o.draggedClass) ∉ (validateMove o off ⟨dom, ec, dc, some d, some p⟩ e).elemClasses ∧
    (p, o.placeholderClass) ∉ (validateMove o off ⟨dom, ec, dc, some d, some p⟩ e).elemClasses ∧
    o.draggingClass ∉ (validateMove o off ⟨dom, ec, dc, some d, some p⟩ e).docClasses ∧
    (onDown o off (validateMove o off ⟨dom, ec, dc, some d, some p⟩ e) t ct cid).isMoving
      = some ct ∧
    (onDown o off (validateMove o off ⟨dom, ec, dc, some d, some p⟩ e) t ct cid).placeholder
      = some cid := by
  have hred : validateMove o off (⟨dom, ec, dc, some d, some p⟩ : SState) e
      = stopMoving o ⟨dom, ec, dc, some d, some p⟩ := by
    unfold validateMove
    have hm : matchesOpt o.moveSelector e = false := by
      unfold matchesOpt
      rw [hms]
      exact hse
    rw [if_neg (by simp), if_neg (by simp [Ne.symm hep]), if_neg (by simp [Ne.symm hed]),
      if_neg (by simp [hm])]
  rw [hred]
  refine ⟨rfl, rfl, rfl, ?_, ?_, ?_, ?_, ?_⟩
  · show (d, o.draggedClass)
        ∉ removeClass p o.placeholderClass (removeClass d o.draggedClass ec)
    exact not_mem_removeClass p o.placeholderClass (not_mem_removeClass_self d o.draggedClass ec)
  · show (p, o.placeholderClass)
        ∉ removeClass p o.placeholderClass (removeClass d o.draggedClass ec)
    exact not_mem_removeClass_self p o.placeholderClass (removeClass d o.draggedClass ec)
  · show o.draggingClass ∉ removeDocClass o.draggingClass dc
    exact not_mem_removeDocClass_self o.draggingClass dc
  · exact (onDown_starts o off _ t ct cid rfl rfl hbl).1
  · exact (onDown_starts o off _ t ct cid rfl rfl hbl).2

theorem moveSelector_cancels_witness :
    opts2.moveSelector = some selEven ∧ selEven 3 = false ∧
    (validateMove opts2 off0 ⟨[0, 1, 2, 3], [], [], some 1, some 2⟩ 3).isMoving = none ∧
    (validateMove opts2 off0 ⟨[0, 1, 2, 3], [], [], some 1, some 2⟩ 3).placeholder = none ∧
    (validateMove opts2 off0 ⟨[0, 1, 2, 3], [], [], some 1, some 2⟩ 3).dom
      = eraseN 2 [0, 1, 2, 3] ∧
    (onDown opts2 off0 (validateMove opts2 off0 ⟨[0, 1, 2, 3], [], [], some 1, some 2⟩ 3)
        0 1 9).isMoving = some 1 ∧
    (onDown opts2 off0 (validateMove opts2 off0 ⟨[0, 1, 2, 3], [], [], some 1, some 2⟩ 3)
        0 1 9).placeholder = some 9 := by
  have h := moveSelector_cancels opts2 off0 [0, 1, 2, 3] [] [] 1 2 3 0 1 9 selEven
    rfl rfl (by decide) (by decide) rfl
  exact ⟨rfl, rfl, h.1, h.2.1, h.2.2.1, h.2.2.2.2.2.2.1, h.2.2.2.2.2.2.2⟩

/-- Claim C4: pointer-up during an active session on a release target that
is neither session node commits the drag: the dragged item is relocated to
immediately before the placeholder (after the placeholder's removal by the
cleanup it occupies the placeholder's former slot), the visual markers are
removed, and both session fields clear. -/
theorem onUp_commits (o : Options) (dom : List Nat) (ec : List (Nat × String))
    (dc : List String) (d p u : Nat) (hnd : dom.Nodup) (hp : p ∈ dom)
    (hdp : d ≠ p) (hud : u ≠ d) (hup : u ≠ p) :
    (onUp o ⟨dom, ec, dc, some d, some p⟩ u).isMoving = none ∧
    (onUp o ⟨dom, ec, dc, some d, some p⟩ u).placeholder = none ∧
    (onUp o ⟨dom, ec, dc, some d, some p⟩ u).dom = replaceNode p d (eraseN d dom) ∧
    (d, o.draggedClass) ∉ (onUp o ⟨dom, ec, dc, some d, some p⟩ u).elemClasses ∧
    (p, o.placeholderClass) ∉ (onUp o ⟨dom, ec, dc, some d, some p⟩ u).elemClasses ∧
    o.draggingClass ∉ (onUp o ⟨dom, ec, dc, some d, some p⟩ u).docClasses := by
  have hpe : p ∈ eraseN d dom := (mem_eraseN_of_ne (Ne.symm hdp) dom).mpr hp
  have hred : onUp o (⟨dom, ec, dc, some d, some p⟩ : SState) u
      = stopMoving o ⟨domInsertBefore d p dom, ec, dc, some d, some p⟩ := by
    unfold onUp
    rw [if_neg (by simp), if_neg (by simp [Ne.symm hud]), if_neg (by simp [Ne.symm hup])]
    rfl
  rw [hred]
  refine ⟨rfl, rfl, ?_, ?_, ?_, ?_⟩
  · show eraseN p (domInsertBefore d p dom) = replaceNode p d (eraseN d dom)
    unfold domInsertBefore
    rw [if_neg hdp, if_pos hpe]
    exact eraseN_target_insertBeforeList hdp (nodup_eraseN d hnd)
  · show (d, o.draggedClass)
        ∉ removeClass p o.placeholderClass (removeClass d o.draggedClass ec)
    exact not_mem_removeClass p o.placeholderClass (not_mem_removeClass_self d o.draggedClass ec)
  · show (p, o.placeholderClass)
        ∉ removeClass p o.placeholderClass (removeClass d o.draggedClass ec)
    exact not_mem_removeClass_self p o.placeholderClass (removeClass d o.draggedClass ec)
  · show o.draggingClass ∉ removeDocClass o.draggingClass dc
    exact not_mem_removeDocClass_self o.draggingClass dc

theorem onUp_commits_witness :
    ([0, 1, 2, 3] : List Nat).Nodup ∧ (3 : Nat) ≠ 1 ∧ (3 : Nat) ≠ 2 ∧
    (onUp opts0 ⟨[0, 1, 2, 3], [], [], some 1, some 2⟩ 3).isMoving = none ∧
    (onUp opts0 ⟨[0, 1, 2, 3], [], [], some 1, some 2⟩ 3).placeholder = none ∧
    (onUp opts0 ⟨[0, 1, 2, 3], [], [], some 1, some 2⟩ 3).dom
      = replaceNode 2 1 (eraseN 1 [0, 1, 2, 3]) := by
  have h := onUp_commits opts0 [0, 1, 2, 3] [] [] 1 2 3 (by decide) (by decide)
    (by decide) (by decide) (by decide)
  exact ⟨by decide, by decide, by decide, h.1, h.2.1, h.2.2.1⟩

/-- Claim C1: in reorder mode, for an active session and a candidate
distinct from both session nodes, the placement decision inserts the
placeholder before the candidate exactly when the horizontal comparison
`e.x > p.x` and the vertical comparison `e.y > p.y` agree (both-false
ties included), inserts it after the candidate otherwise, and in every
case then relocates the dragged item to immediately before the
placeholder — so the final sibling order holds the contiguous block
`dragged, placeholder, candidate` in the agreeing case and
`candidate, dragged, placeholder` in the disagreeing one. -/
theorem reorder_tiebreak (o : Options) (off : Nat → Int × Int)
    (dom : List Nat) (ec : List (Nat × String)) (dc : List String) (d p e : Nat)
    (hswap : o.swap = false) (hsel : matchesOpt o.moveSelector e = true)
    (hnd : dom.Nodup) (he : e ∈ dom) (hdp : d ≠ p) (hep : e ≠ p) (hed : e ≠ d) :
    (((off e).1 > (off p).1 ↔ (off e).2 > (off p).2) →
      immediatelyBefore d p (validateMove o off ⟨dom, ec, dc, some d, some p⟩ e).dom = true ∧
      immediatelyBefore p e (validateMove o off ⟨dom, ec, dc, some d, some p⟩ e).dom = true) ∧
    (¬ ((off e).1 > (off p).1 ↔ (off e).2 > (off p).2) →
      immediatelyBefore e d (validateMove o off ⟨dom, ec, dc, some d, some p⟩ e).dom = true ∧
      immediatelyBefore d p (validateMove o off ⟨dom, ec, dc, some d, some p⟩ e).dom = true) := by
  rw [validateMove_active o off dom ec dc hep hed hsel]
  constructor
  · intro hiff
    have hdom : (movePlaceholder o off (⟨dom, ec, dc, some d, some p⟩ : SState) e).dom
        = domInsertBefore d p (domInsertBefore p e dom) := by
      by_cases hx : (off e).1 > (off p).1
      · have hy := hiff.mp hx
        simp [movePlaceholder, hswap, hx, hy, domInsertBeforeO]
      · have hy : ¬ (off e).2 > (off p).2 := fun hh => hx (hiff.mpr hh)
        simp [movePlaceholder, hswap, hx, hy, domInsertBeforeO]
    rw [hdom]
    exact ⟨(reorder_dom_before hnd he hdp hep hed).1,
      (reorder_dom_before hnd he hdp hep hed).2⟩
  · intro hiff
    have hdom : (movePlaceholder o off (⟨dom, ec, dc, some d, some p⟩ : SState) e).dom
        = domInsertBefore d p (domInsertAfter p e dom) := by
      by_cases hx : (off e).1 > (off p).1 <;> by_cases hy : (off e).2 > (off p).2
      · exact absurd (iff_of_true hx hy) hiff
      · simp [movePlaceholder, hswap, hx, hy, domInsertBeforeO]
      · simp [movePlaceholder, hswap, hx, hy, domInsertBeforeO]
      · exact absurd (iff_of_false hx hy) hiff
    rw [hdom]
    exact ⟨(reorder_dom_after hnd he hdp hep hed).1,
      (reorder_dom_after hnd he hdp hep hed).2⟩

theorem reorder_tiebreak_witness :
    ([0, 1, 2, 3] : List Nat).Nodup ∧ matchesOpt opts0.moveSelector 3 = true ∧
    ((((off0 3).1 > (off0 2).1 ↔ (off0 3).2 > (off0 2).2) →
        immediatelyBefore 1 2
          (validateMove opts0 off0 ⟨[0, 1, 2, 3], [], [], some 1, some 2⟩ 3).dom = true ∧
        immediatelyBefore 2 3
          (validateMove opts0 off0 ⟨[0, 1, 2, 3], [], [], some 1, some 2⟩ 3).dom = true) ∧
      (¬ ((off0 3).1 > (off0 2).1 ↔ (off0 3).2 > (off0 2).2) →
        immediatelyBefore 3 1
          (validateMove opts0 off0 ⟨[0, 1, 2, 3], [], [], some 1, some 2⟩ 3).dom = true ∧
        immediatelyBefore 1 2
          (validateMove opts0 off0 ⟨[0, 1, 2, 3], [], [], some 1, some 2⟩ 3).dom = true)) :=
  ⟨by decide, rfl,
   reorder_tiebreak opts0 off0 [0, 1, 2, 3] [] [] 1 2 3 rfl rfl (by decide) (by decide)
     (by decide) (by decide) (by decide)⟩

/-- Claim C2 (amended): in swap mode the placement decision performs the
three relocations of the source; the net effect on the non-placeholder
siblings is the transposition of the dragged item and the candidate (no
shift of the others), and the placeholder ends up immediately after the
dragged item — at the candidate's former slot — not, in general, adjacent
to the candidate. -/
theorem swap_mode_net_effect (o : Options) (off : Nat → Int × Int)
    (dom : List Nat) (ec : List (Nat × String)) (dc : List String) (d p e : Nat)
    (hswap : o.swap = true) (hsel : matchesOpt o.moveSelector e = true)
    (hnd : dom.Nodup) (hd : d ∈ dom) (he : e ∈ dom)
    (hdp : d ≠ p) (hep : e ≠ p) (hed : e ≠ d) :
    (validateMove o off ⟨dom, ec, dc, some d, some p⟩ e).dom
        = insertAfterList p d (List.map (swapNodes d e) (eraseN p dom)) ∧
    eraseN p (validateMove o off ⟨dom, ec, dc, some d, some p⟩ e).dom
        = List.map (swapNodes d e) (eraseN p dom) ∧
    immediatelyBefore d p (validateMove o off ⟨dom, ec, dc, some d, some p⟩ e).dom = true := by
  rw [validateMove_active o off dom ec dc hep hed hsel]
  have hee : e ∈ eraseN p dom := (mem_eraseN_of_ne hep dom).mpr he
  have hpn : p ∉ eraseN p dom := not_mem_eraseN_self p hnd
  have hnd1 : (eraseN p dom).Nodup := nodup_eraseN p hnd
  have h1 : domInsertAfter p e dom = insertAfterList p e (eraseN p dom) := by
    unfold domInsertAfter
    rw [if_neg (Ne.symm hep), if_pos hee]
  have hdL1 : d ∈ insertAfterList p e (eraseN p dom) :=
    mem_insertAfterList p e ((mem_eraseN_of_ne hdp dom).mpr hd)
  have h2 : domInsertBefore e d (insertAfterList p e (eraseN p dom))
      = insertBeforeList e d (eraseN e (insertAfterList p e (eraseN p dom))) := by
    unfold domInsertBefore
    rw [if_neg hed, if_pos ((mem_eraseN_of_ne (Ne.symm hed) _).mpr hdL1)]
  have h2e : eraseN e (insertAfterList p e (eraseN p dom))
      = replaceNode e p (eraseN p dom) := eraseN_target_insertAfterList p hnd1
  have hM : (replaceNode e p (eraseN p dom)).Nodup := replaceNode_nodup hnd1 hpn
  have hpL2 : p ∈ insertBeforeList e d (replaceNode e p (eraseN p dom)) :=
    mem_insertBeforeList e d (mem_replaceNode_new p hee)
  have h3 : domInsertBefore d p (insertBeforeList e d (replaceNode e p (eraseN p dom)))
      = insertBeforeList d p
          (eraseN d (insertBeforeList e d (replaceNode e p (eraseN p dom)))) := by
    unfold domInsertBefore
    rw [if_neg hdp, if_pos ((mem_eraseN_of_ne (Ne.symm hdp) _).mpr hpL2)]
  have h3e : eraseN d (insertBeforeList e d (replaceNode e p (eraseN p dom)))
      = replaceNode d e (replaceNode e p (eraseN p dom)) :=
    eraseN_target_insertBeforeList hed hM
  have hdom : (movePlaceholder o off (⟨dom, ec, dc, some d, some p⟩ : SState) e).dom
      = domInsertBefore d p (domInsertBefore e d (domInsertAfter p e dom)) := by
    simp [movePlaceholder, hswap, domInsertBeforeO]
  have hfinal : (movePlaceholder o off (⟨dom, ec, dc, some d, some p⟩ : SState) e).dom
      = insertAfterList p d (List.map (swapNodes d e) (eraseN p dom)) := by
    rw [hdom, h1, h2, h2e, h3, h3e]
    exact swap_core hdp hep (Ne.symm hed) hpn hnd1
  refine ⟨hfinal, ?_, ?_⟩
  · rw [hfinal]
    exact eraseN_insertAfterList_self d
      (not_mem_map_swapNodes hpn (Ne.symm hdp) (Ne.symm hep))
  · rw [hfinal]
    exact immediatelyBefore_insertAfterList p (mem_map_swapNodes_of hee (Ne.symm hed))

theorem swap_mode_net_effect_witness :
    opts1.swap = true ∧ ([0, 1, 2, 3] : List Nat).Nodup ∧
    (validateMove opts1 off0 ⟨[0, 1, 2, 3], [], [], some 1, some 2⟩ 3).dom
      = insertAfterList 2 1 (List.map (swapNodes 1 3) (eraseN 2 [0, 1, 2, 3])) ∧
    eraseN 2 (validateMove opts1 off0 ⟨[0, 1, 2, 3], [], [], some 1, some 2⟩ 3).dom
      = List.map (swapNodes 1 3) (eraseN 2 [0, 1, 2, 3]) ∧
    immediatelyBefore 1 2
      (validateMove opts1 off0 ⟨[0, 1, 2, 3], [], [], some 1, some 2⟩ 3).dom = true := by
  have h := swap_mode_net_effect opts1 off0 [0, 1, 2, 3] [] [] 1 2 3 rfl rfl (by decide)
    (by decide) (by decide) (by decide) (by decide) (by decide)
  exact ⟨rfl, by decide, h.1, h.2.1, h.2.2⟩

/-- Claim C2 counterexample: with container `[0, 1, 2, 3]`, dragged item
`1`, placeholder `2` and candidate `3`, the swap-mode placement decision
produces sibling order `[0, 3, 1, 2]`, in which the placeholder `2` is
not adjacent to the candidate `3` on either side — refuting the claim's
clause that the placeholder is left adjacent to the swapped candidate. -/
theorem swap_mode_placeholder_not_adjacent :
    (validateMove opts1 off0 ⟨[0, 1, 2, 3], [], [], some 1, some 2⟩ 3).dom = [0, 3, 1, 2] ∧
    immediatelyBefore 2 3
      (validateMove opts1 off0 ⟨[0, 1, 2, 3], [], [], some 1, some 2⟩ 3).dom = false ∧
    immediatelyBefore 3 2
      (validateMove opts1 off0 ⟨[0, 1, 2, 3], [], [], some 1, some 2⟩ 3).dom = false := by
  decide

/-- Claim C10: every placement decision that runs to completion during an
active session — swap mode and reorder mode alike — leaves the dragged
item immediately before the placeholder in the sibling order. -/
theorem placement_adjacency (o : Options) (off : Nat → Int × Int)
    (dom : List Nat) (ec : List (Nat × String)) (dc : List String) (d p e : Nat)
    (hnd : dom.Nodup) (hd : d ∈ dom) (he : e ∈ dom)
    (hdp : d ≠ p) (hep : e ≠ p) (hed : e ≠ d) :
    immediatelyBefore d p (movePlaceholder o off ⟨dom, ec, dc, some d, some p⟩ e).dom
      = true := by
  by_cases hs : o.swap = true
  · have hee : e ∈ eraseN p dom := (mem_eraseN_of_ne hep dom).mpr he
    have h1 : domInsertAfter p e dom = insertAfterList p e (eraseN p dom) := by
      unfold domInsertAfter
      rw [if_neg (Ne.symm hep), if_pos hee]
    have hdL1 : d ∈ insertAfterList p e (eraseN p dom) :=
      mem_insertAfterList p e ((mem_eraseN_of_ne hdp dom).mpr hd)
    have h2 : domInsertBefore e d (insertAfterList p e (eraseN p dom))
        = insertBeforeList e d (eraseN e (insertAfterList p e (eraseN p dom))) := by
      unfold domInsertBefore
      rw [if_neg hed, if_pos ((mem_eraseN_of_ne (Ne.symm hed) _).mpr hdL1)]
    have hpL2 : p ∈ insertBeforeList e d (eraseN e (insertAfterList p e (eraseN p dom))) :=
      mem_insertBeforeList e d
        ((mem_eraseN_of_ne (Ne.symm hep) _).mpr (self_mem_insertAfterList p hee))
    have h3 : domInsertBefore d p
          (insertBeforeList e d (eraseN e (insertAfterList p e (eraseN p dom))))
        = insertBeforeList d p (eraseN d
            (insertBeforeList e d (eraseN e (insertAfterList p e (eraseN p dom))))) := by
      unfold domInsertBefore
      rw [if_neg hdp, if_pos ((mem_eraseN_of_ne (Ne.symm hdp) _).mpr hpL2)]
    have hdom : (movePlaceholder o off (⟨dom, ec, dc, some d, some p⟩ : SState) e).dom
        = domInsertBefore d p (domInsertBefore e d (domInsertAfter p e dom)) := by
      simp [movePlaceholder, hs, domInsertBeforeO]
    rw [hdom, h1, h2, h3]
    exact immediatelyBefore_insertBeforeList d ((mem_eraseN_of_ne (Ne.symm hdp) _).mpr hpL2)
  · by_cases hx : (off e).1 > (off p).1 <;> by_cases hy : (off e).2 > (off p).2
    · have hdom : (movePlaceholder o off (⟨dom, ec, dc, some d, some p⟩ : SState) e).dom
          = domInsertBefore d p (domInsertBefore p e dom) := by
        simp [movePlaceholder, hs, hx, hy, domInsertBeforeO]
      rw [hdom]
      exact (reorder_dom_before hnd he hdp hep hed).1
    · have hdom : (movePlaceholder o off (⟨dom, ec, dc, some d, some p⟩ : SState) e).dom
          = domInsertBefore d p (domInsertAfter p e dom) := by
        simp [movePlaceholder, hs, hx, hy, domInsertBeforeO]
      rw [hdom]
      exact (reorder_dom_after hnd he hdp hep hed).2
    · have hdom : (movePlaceholder o off (⟨dom, ec, dc, some d, some p⟩ : SState) e).dom
          = domInsertBefore d p (domInsertAfter p e dom) := by
        simp [movePlaceholder, hs, hx, hy, domInsertBeforeO]
      rw [hdom]
      exact (reorder_dom_after hnd he hdp hep hed).2
    · have hdom : (movePlaceholder o off (⟨dom, ec, dc, some d, some p⟩ : SState) e).dom
          = domInsertBefore d p (domInsertBefore p e dom) := by
        simp [movePlaceholder, hs, hx, hy, domInsertBeforeO]
      rw [hdom]
      exact (reorder_dom_before hnd he hdp hep hed).1

theorem placement_adjacency_witness :
    ([0, 1, 2, 3] : List Nat).Nodup ∧
    immediatelyBefore 1 2
      (movePlaceholder opts1 off0 ⟨[0, 1, 2, 3], [], [], some 1, some 2⟩ 3).dom = true ∧
    immediatelyBefore 1 2
      (movePlaceholder opts0 off0 ⟨[0, 1, 2, 3], [], [], some 1, some 2⟩ 3).dom = true :=
  ⟨by decide,
   placement_adjacency opts1 off0 [0, 1, 2, 3] [] [] 1 2 3 (by decide) (by decide)
     (by decide) (by decide) (by decide) (by decide),
   placement_adjacency opts0 off0 [0, 1, 2, 3] [] [] 1 2 3 (by decide) (by decide)
     (by decide) (by decide) (by decide) (by decide)⟩

end SortableList
